import Mathlib

/-!
Verification of the condition-generation core of the `experimentator` package:
`Design`, `DesignTree` (design.py) and `ExperimentSection` (section.py).

Python dictionaries are modelled as association lists with unique keys and
insertion order (`Condition`); `collections.ChainMap` contexts as lists of
layers, front layer first (`Context`); Python exceptions as an explicit
`PyError` sum, with fallible operations returning `Except PyError`.
The `experimentator.order` module is not part of the sources; orderings are
modelled from the spec as an abstract collaborator exposing `get_order` and
`first_pass` (spec section 6).
-/

namespace Experimentator

/-- A Python value appearing as an IV value, a design-matrix code, or inside a
condition mapping. -/
inductive Value where
  | int (n : Int)
  | str (s : String)
deriving DecidableEq, Repr

/-- A Python dict used as a condition mapping: an association list with unique
keys, kept in insertion order. -/
abbrev Condition := List (String × Value)

/-- Dict lookup: the value stored at key `k`, if any. -/
def getVal (d : Condition) (k : String) : Option Value :=
  (d.find? (fun p => p.1 == k)).map (·.2)

/-- Dict assignment `d[k] = v`: replace the value in place if `k` is present
(keeping its position), otherwise append the new pair at the end. -/
def setKey (d : Condition) (k : String) (v : Value) : Condition :=
  if d.any (fun p => p.1 == k) then
    d.map (fun p => if p.1 == k then (k, v) else p)
  else d ++ [(k, v)]

/-- Python `d.update(upd)`: assign every key of `upd` into `d`, in order. -/
def dictUpdate (d upd : Condition) : Condition :=
  upd.foldl (fun acc p => setKey acc p.1 p.2) d

/-- A `collections.ChainMap` context: list of dict layers, front layer first.
Lookups fall through to later (ancestor) layers. -/
abbrev Context := List Condition

/-- `ChainMap.new_child()`: push a fresh empty layer at the front. -/
def newChild (c : Context) : Context := [] :: c

/-- `ChainMap.update(upd)` writes into the front layer only. -/
def ctxUpdate (c : Context) (upd : Condition) : Context :=
  match c with
  | [] => [upd]
  | front :: rest => dictUpdate front upd :: rest

/-- ChainMap lookup: first layer containing the key wins. -/
def ctxGet (c : Context) (k : String) : Option Value :=
  match c with
  | [] => none
  | front :: rest =>
    match getVal front k with
    | some v => some v
    | none => ctxGet rest k

/-- Flatten a ChainMap into a single dict (front layers take precedence),
as `dict(**chainmap)` would. -/
def resolveContext (c : Context) : Condition :=
  c.reverse.foldl (fun acc layer => dictUpdate acc layer) []

/-- Python exceptions raised by the modelled code.  The spec posits a single
`ConfigurationError` class; no such class exists anywhere in the sources
(design.py and section.py raise the built-in `TypeError` and `ValueError`),
so the constructor is included only so that the spec sentence can be stated
and compared with what the code actually raises. -/
inductive PyError where
  | typeError (msg : String)
  | valueError (msg : String)
  | attributeError (msg : String)
  | keyError (msg : String)
  | indexError (msg : String)
  | stopIteration
  | configurationError (msg : String)
deriving DecidableEq, Repr

/-- True exactly for the `ConfigurationError` class the spec posits. -/
def PyError.isConfigurationError : PyError → Bool
  | .configurationError _ => true
  | _ => false

/-- Modelled from the spec: the `experimentator.order` module (the `Ordering`
class hierarchy) is not among the sources.  Spec section 6 gives its contract:
`get_order(ancestor-context) -> ordered sequence of condition mappings` and
`first_pass(all-conditions) -> (synthetic-iv-name, synthetic-iv-values)`,
where the returned pair is empty (falsy name) for ordinary atomic orderings
and non-empty for the non-atomic subtype. -/
structure PyOrdering where
  get_order : Option Condition → List Condition
  first_pass : List Condition → Option String × List Value

/-- Modelled from the spec: `order.Shuffle()`, the default ordering when no
design matrix is given.  It is atomic, so its `first_pass` returns the empty
pair; its randomized `get_order` is outside the sources and no theorem below
depends on it. -/
def shuffleDefault : PyOrdering :=
  { get_order := fun _ => [], first_pass := fun _ => (none, []) }

/-- Modelled from the spec: `order.Ordering()`, the order-preserving default
used when a design matrix is given.  Atomic; its `get_order` (which replays
the conditions stored at `first_pass` time) is outside the sources and no
theorem below depends on it. -/
def orderingDefault : PyOrdering :=
  { get_order := fun _ => [], first_pass := fun _ => (none, []) }

/-- `Design` (design.py, class body lines 17-328).  `iv_values` entries are
`none` for Python `None` ("continuous" IVs) and `some vs` for a declared
value list.  Design matrices are numeric (numpy) arrays, modelled as a list
of rows of `Int` codes. -/
structure Design where
  iv_names : List String
  iv_values : List (Option (List Value))
  design_matrix : Option (List (List Int))
  extra_data : Condition
  ordering : PyOrdering

/-- `Design.heterogeneous_design_iv_name` (design.py line 97). -/
def heterogeneous_design_iv_name : String := "design"

/-- `Design.__init__` (design.py lines 99-121).  `ivs` given as the list of
(name, values) pairs (a dict input is first converted to exactly that list).
Raises `TypeError` when some IV has `None` values and no design matrix is
given. -/
def Design.init (ivs : List (String × Option (List Value)))
    (design_matrix : Option (List (List Int)))
    (ordering : Option PyOrdering)
    (extra_data : Option Condition) : Except PyError Design :=
  let iv_names := ivs.map (·.1)
  let iv_values := ivs.map (·.2)
  let ord :=
    match ordering with
    | some o => o
    | none =>
      match design_matrix with
      | none => shuffleDefault
      | some _ => orderingDefault
  if design_matrix.isNone && iv_values.any (·.isNone) then
    .error (.typeError "Must specify a design matrix if using continuous IVs (values=None)")
  else
    .ok { iv_names := iv_names, iv_values := iv_values, design_matrix := design_matrix,
          extra_data := extra_data.getD [], ordering := ord }

/-- `Design.update` (design.py lines 255-270): append additional IV
declarations. -/
def Design.update (d : Design) (names : List String) (values : List (List Value)) : Design :=
  { d with iv_names := d.iv_names ++ names,
           iv_values := d.iv_values ++ values.map some }

/-- `Design.get_order` (design.py lines 211-223): take the ordering's
condition sequence and update each condition with the extra data (so
extra-data values overwrite same-named IV values). -/
def Design.get_order (d : Design) (data : Option Condition) : List Condition :=
  (d.ordering.get_order data).map (fun condition => dictUpdate condition d.extra_data)

/-- `itertools.product` on lists: all combinations, last factor varying
fastest. -/
def itertoolsProduct : List (List α) → List (List α)
  | [] => [[]]
  | l :: ls => l.flatMap (fun v => (itertoolsProduct ls).map (fun rest => v :: rest))

/-- `dict(zip(names, combo))`: later duplicates overwrite earlier ones. -/
def dictOfPairs (ps : List (String × Value)) : Condition :=
  ps.foldl (fun acc p => setKey acc p.1 p.2) []

/-- `Design.full_cross` (design.py lines 272-292): one condition dict per
element of the Cartesian product of the IV value lists. -/
def Design.full_cross (iv_names : List String) (iv_values : List (List Value)) : List Condition :=
  (itertoolsProduct iv_values).map (fun combo => dictOfPairs (iv_names.zip combo))

/-- `np.unique(column)`: the distinct elements of the column in ascending
order. -/
def npUnique (l : List Int) : List Int :=
  (l.dedup).insertionSort (· ≤ ·)

/-- Truthiness of an `iv_values` entry (`if iv_values:`): `None` and the
empty list are falsy. -/
def truthyVals : Option (List Value) → Bool
  | some (_ :: _) => true
  | _ => false

/-- `np.array(iv_values)[factor_values == cell][0]` (design.py line 306): the
declared value aligned with the position of `cell` among the column's sorted
distinct codes.  At every reachable call site `iv_values` and `factor_values`
have equal length (checked at design.py lines 296-298); an absent match makes
the numpy `[0]` raise `IndexError`. -/
def decodeCell (iv_values : List Value) (factor_values : List Int) (cell : Int) :
    Except PyError Value :=
  match (factor_values.zip iv_values).find? (fun p => p.1 == cell) with
  | some p => .ok p.2
  | none => .error (.indexError "index 0 is out of bounds")

/-- One column step of the row loop of `_parse_design_matrix` (design.py
lines 303-308): assign the decoded IV value into the condition under
construction — declared-value decoding for truthy `iv_values`, the raw cell
otherwise. -/
def parseStep (condition : Condition)
    (quad : String × (Option (List Value) × (List Int × Int))) :
    Except PyError Condition :=
  match quad.2.1 with
  | some (v :: vs) => do
      let value ← decodeCell (v :: vs) quad.2.2.1 quad.2.2.2
      pure (setKey condition quad.1 value)
  | _ => pure (setKey condition quad.1 (.int quad.2.2.2))

/-- One iteration of the row loop of `_parse_design_matrix` (design.py lines
301-309): start from a copy of the extra data and assign, per column, the
decoded IV value.  `zip` truncates to the shortest input, as in Python. -/
def parseRow (d : Design) (values_per_factor : List (List Int)) (row : List Int) :
    Except PyError Condition :=
  (d.iv_names.zip (d.iv_values.zip (values_per_factor.zip row))).foldlM
    parseStep d.extra_data

/-- `np.transpose` on a rectangular numpy matrix: the list of columns, where
column `j` collects the `j`-th entry of every row.  The sources only ever
transpose numpy design matrices, which are rectangular. -/
def transposeRect (m : List (List Int)) : List (List Int) :=
  match m with
  | [] => []
  | r :: _ => (List.range r.length).map (fun j => m.filterMap (fun row => row[j]?))

/-- `Design._parse_design_matrix` (design.py lines 294-311).  Raises
`ValueError` when some truthy IV value list disagrees in length with its
column's distinct codes. -/
def Design.parse_design_matrix (d : Design) (design_matrix : List (List Int)) :
    Except PyError (List Condition) :=
  let values_per_factor := (transposeRect design_matrix).map npUnique
  if (d.iv_values.zip values_per_factor).any (fun p =>
      match p.1 with
      | some vs@(_ :: _) => !(vs.length == p.2.length)
      | _ => false) then
    .error (.valueError "Unique elements in design matrix do not match number of values in IV definition")
  else
    design_matrix.mapM (parseRow d values_per_factor)

/-- Turn `iv_values` into plain value lists; `none` (Python `None`) makes
`itertools.product(*iv_values)` raise `TypeError`. -/
def seqVals : List (Option (List Value)) → Option (List (List Value))
  | [] => some []
  | none :: _ => none
  | some vs :: rest => (seqVals rest).map (vs :: ·)

/-- `Design.first_pass` (design.py lines 225-253): build all conditions (from
the design matrix when present — after checking its column count against the
IV count — or by full factorial cross) and hand them to the ordering's
`first_pass`.  `np.shape(m)[1]` on an empty matrix raises `IndexError`; on a
rectangular matrix it is the length of the first row. -/
def Design.first_pass (d : Design) : Except PyError (Option String × List Value) := do
  let all_conditions ←
    match d.design_matrix with
    | some m =>
      match m with
      | [] => .error (.indexError "tuple index out of range")
      | r :: _ =>
        if r.length == d.iv_names.length then d.parse_design_matrix m
        else .error (.typeError "Size of design matrix does not match number of IVs")
    | none =>
      match seqVals d.iv_values with
      | some vss => .ok (Design.full_cross d.iv_names vss)
      | none => .error (.typeError "argument of type NoneType is not iterable")
  .ok (d.ordering.first_pass all_conditions)

/-- `Design.is_heterogeneous` (design.py lines 313-319). -/
def Design.is_heterogeneous (d : Design) : Bool :=
  d.iv_names.any (· == heterogeneous_design_iv_name)

/-- `Design.branches` (design.py lines 321-328):
`dict(zip(iv_names, iv_values)).get('design', ())`.  In a dict built from
duplicate keys the last occurrence wins.  A `design` IV declared with `None`
values would make the callers' iteration raise; the spec requires its values
to be strings, and no claim probes that corner, so it is flattened to `[]`. -/
def Design.branches (d : Design) : List Value :=
  match (d.iv_names.zip d.iv_values).reverse.find?
      (fun p => p.1 == heterogeneous_design_iv_name) with
  | some (_, some vs) => vs
  | _ => []

/-- The `Level` namedtuple (design.py line 14).  After the constructor's
normalization the `design` field always holds a list of `Design`s. -/
structure Level where
  name : String
  design : List Design

/-- `DesignTree` (design.py lines 331-550): the explicit levels plus the
branch map for heterogeneous structures.  Branch-map keys are the values of
the `design` IV. -/
inductive DesignTree where
  | mk (levels_and_designs : List Level) (branches : List (Value × DesignTree))

/-- The `levels_and_designs` attribute. -/
def DesignTree.levels : DesignTree → List Level
  | .mk ls _ => ls

/-- The `branches` attribute. -/
def DesignTree.branches : DesignTree → List (Value × DesignTree)
  | .mk _ bs => bs

/-- `DesignTree.__len__` (design.py lines 486-490): the number of explicit
levels, plus the length of the first branch tree when a branch map exists. -/
def DesignTree.len : DesignTree → Nat
  | .mk ls bs =>
    ls.length +
      match bs with
      | [] => 0
      | (_, t) :: _ => t.len

/-- `DesignTree.__next__` (design.py lines 475-484): `StopIteration` at
logical length 1; the branch map once a single explicit level remains;
otherwise a shallow copy with the first level dropped (the branch map is
shared). -/
def DesignTree.next (t : DesignTree) :
    Except PyError (DesignTree ⊕ List (Value × DesignTree)) :=
  if t.len == 1 then .error .stopIteration
  else if t.levels.length == 1 then .ok (.inr t.branches)
  else .ok (.inl (.mk t.levels.tail t.branches))

/-- The `if iv_name:` collection step of `DesignTree.first_pass` (design.py
lines 518-524): keep the (name, values) pairs whose name is truthy. -/
def collectNew (results : List (Option String × List Value)) :
    List String × List (List Value) :=
  let pairs := results.filterMap (fun r => r.1.map (fun nm => (nm, r.2)))
  (pairs.map (·.1), pairs.map (·.2))

/-- The bottom-up pass of `DesignTree.first_pass` (design.py lines 514-531),
written as recursion from the top: process all lower levels first, update
this level's designs with the synthetic IVs collected from the level directly
below (the bottom level is never updated), then run `first_pass` on each of
this level's designs.  Returns the updated levels together with this (top)
level's raw `first_pass` results. -/
def fpAux : List Level → Except PyError (List Level × List (Option String × List Value))
  | [] => .ok ([], [])
  | [lvl] => do
    let results ← lvl.design.mapM Design.first_pass
    .ok ([⟨lvl.name, lvl.design⟩], results)
  | lvl :: next :: rest => do
    let (rest', subResults) ← fpAux (next :: rest)
    let designs' := lvl.design.map (fun d =>
      d.update (collectNew subResults).1 (collectNew subResults).2)
    let results ← designs'.mapM Design.first_pass
    .ok (⟨lvl.name, designs'⟩ :: rest', results)

/-- `DesignTree.first_pass` (design.py lines 499-533): the bottom-up pass;
the returned synthetic IV is the last top-level design's result (the loop at
lines 530-531 overwrites it per design), or the empty pair when the top level
has no designs. -/
def DesignTree.first_pass (levels : List Level) :
    Except PyError (List Level × (Option String × List Value)) := do
  let (levels', results) ← fpAux levels
  .ok (levels', results.getLast?.getD (none, []))

/-- A design specification at one level of the constructor input: a lone
`Design` or a list of `Design`s (design.py lines 341-346). -/
inductive DesignsSpec where
  | one (d : Design)
  | seq (ds : List Design)

/-- A value of the constructor's `other_designs` keyword dict, or its
`levels_and_designs` argument: an already-constructed `DesignTree` or a raw
levels specification (an `OrderedDict` input is first converted to the same
list of pairs). -/
inductive TreeSpec where
  | raw (levels : List (String × DesignsSpec))
  | tree (t : DesignTree)

/-- Normalization of `levels_and_designs` (design.py lines 379-388): wrap a
singleton `Design` in a list and build the `Level` namedtuples. -/
def normalizeLevels (levels : List (String × DesignsSpec)) : List Level :=
  levels.map (fun p =>
    match p.2 with
    | .one d => ⟨p.1, [d]⟩
    | .seq ds => ⟨p.1, ds⟩)

/-- The working level list of a constructor argument.  Iterating an existing
`DesignTree` (via its legacy `__getitem__` protocol) yields its `Level`
namedtuples, whose designs are already normalized lists. -/
def TreeSpec.toLevels : TreeSpec → List Level
  | .raw levels => normalizeLevels levels
  | .tree t => t.levels

/-- design.py line 394 evaluates
`branch in bottom_level_design.branches and isinstance(branch, DesignTree)`.
`bottom_level_design.branches` holds IV values (strings or numbers) while
`branch` is a `DesignTree` instance or a raw levels specification;
`DesignTree.__eq__` returns `None` for operands of another type, and a list
or `OrderedDict` never equals a string or number, so the membership test is
`False` for every pair. -/
def TreeSpec.pyEqValue : TreeSpec → Value → Bool := fun _ _ => false

/-- Keyword-dict lookup `other_designs[k]`. -/
def lookupKey (others : List (String × TreeSpec)) (k : String) : Option TreeSpec :=
  (others.find? (fun p => p.1 == k)).map (·.2)

/-- `del designs_to_pass[k]` on a copy of the keyword dict. -/
def eraseKey (others : List (String × TreeSpec)) (k : String) : List (String × TreeSpec) :=
  others.filter (fun p => !(p.1 == k))

/-- The branch-construction loop of `DesignTree.__init__` (design.py lines
395-400), parameterized by the recursive constructor it calls: for each
declared branch name not already present, look the specification (or tree)
up among the named alternates — a missing key, or a non-string branch name
used against the keyword dict, raises `KeyError` — and construct its
`DesignTree`, passing the other alternates with the current branch
removed. -/
def buildBranchesF
    (init : TreeSpec → List (String × TreeSpec) → Except PyError DesignTree)
    (other_designs : List (String × TreeSpec)) :
    List Value → List (Value × DesignTree) → Except PyError (List (Value × DesignTree))
  | [], acc => .ok acc
  | bn :: rest, acc =>
    if acc.any (fun p => p.1 == bn) then
      buildBranchesF init other_designs rest acc
    else
      match bn with
      | .str k =>
        match lookupKey other_designs k with
        | some spec => do
          let t ← init spec (eraseKey other_designs k)
          buildBranchesF init other_designs rest (acc ++ [(bn, t)])
        | none => .error (.keyError k)
      | .int n => .error (.keyError (toString n))

/-- `DesignTree.__init__` (design.py lines 376-408): normalize the levels,
resolve heterogeneity from the first design of the bottom level (building
one branch tree per declared branch name; the filter at line 394 never
retains a supplied tree, see `TreeSpec.pyEqValue`), then run the bottom-up
`first_pass` and reject a truthy top-level synthetic IV with `ValueError`.
The recursion is driven by a fuel parameter: every recursive construction
removes the current branch from the named alternates, so any fuel exceeding
the alternate count — as `DesignTree.init` supplies — is never exhausted and
the fuel-out case is unreachable. -/
def DesignTree.initFuel : Nat → TreeSpec → List (String × TreeSpec) →
    Except PyError DesignTree
  | 0, _, _ => .error (.keyError "recursion fuel exhausted (unreachable)")
  | fuel + 1, levels_and_designs, other_designs => do
    let levels := levels_and_designs.toLevels
    match levels.getLast? with
    | none => .error (.indexError "list index out of range")
    | some bottom =>
      match bottom.design.head? with
      | none => .error (.indexError "list index out of range")
      | some bottom_level_design => do
        let branches ←
          if bottom_level_design.is_heterogeneous then
            let start : List (Value × DesignTree) :=
              (other_designs.filter (fun p =>
                bottom_level_design.branches.any (fun v => p.2.pyEqValue v))).filterMap
                (fun p =>
                  match p.2 with
                  | .tree t => some (Value.str p.1, t)
                  | .raw _ => none)
            buildBranchesF (DesignTree.initFuel fuel) other_designs
              bottom_level_design.branches start
          else
            pure []
        let (levels', top) ← DesignTree.first_pass levels
        match top.1 with
        | some _ =>
          .error (.valueError "Cannot have a non-atomic ordering at the top level of a DesignTree. The recommended workaround is to insert a dummy level with no IVs and number=1.")
        | none => .ok (.mk levels' branches)

/-- `DesignTree.__init__` entry point: the supplied fuel strictly exceeds the
number of named alternates, which bounds the recursion depth. -/
def DesignTree.init (levels_and_designs : TreeSpec)
    (other_designs : List (String × TreeSpec)) : Except PyError DesignTree :=
  DesignTree.initFuel (other_designs.length + 1) levels_and_designs other_designs

/-- `ExperimentSection` (section.py lines 5-71): a node of the materialized
section tree.  The run-state flags `has_started`/`has_finished` are set to
`False` at construction, never read by the modelled code, and omitted. -/
inductive ExperimentSection where
  | mk (context : Context) (tree : DesignTree) (level : String)
       (is_bottom_level : Bool) (next_level : Option String)
       (children : List ExperimentSection)

/-- The `context` attribute. -/
def ExperimentSection.context : ExperimentSection → Context
  | .mk c _ _ _ _ _ => c

/-- The `is_bottom_level` attribute. -/
def ExperimentSection.is_bottom_level : ExperimentSection → Bool
  | .mk _ _ _ b _ _ => b

/-- The `children` attribute. -/
def ExperimentSection.children : ExperimentSection → List ExperimentSection
  | .mk _ _ _ _ _ cs => cs

/-- The attribute lookup `design.order` performed by
`ExperimentSection.append_design` (section.py lines 29 and 33).  The `Design`
class (design.py lines 17-328) defines `get_order`, `first_pass`, `update`,
`full_cross`, `_parse_design_matrix`, `is_heterogeneous` and `branches` —
but no attribute or method named `order` — so the lookup raises
`AttributeError`. -/
def Design.getattr_order (_ : Design) :
    Except PyError (Condition → Except PyError (List Condition)) :=
  .error (.attributeError "Design object has no attribute order")

/-- `ExperimentSection.append_design` (section.py lines 27-34).  Both
branches evaluate `design.order(**self.context)` first; the attribute lookup
fails (see `Design.getattr_order`), so the loop over the returned conditions
— which would construct one child per condition via `append_child`,
reversed-and-front-inserted when `to_start` — is unreachable and the trailing
success value is never produced. -/
def ExperimentSection.append_design (s : ExperimentSection) (design : Design)
    (to_start : Bool) : Except PyError ExperimentSection := do
  let order_fn ← design.getattr_order
  let new_contexts ← order_fn (resolveContext s.context)
  let _ := if to_start then new_contexts.reverse else new_contexts
  .ok s

/-- `ExperimentSection.__init__` (section.py lines 6-25).
`self.level = self.tree[0][0]` (an `IndexError` on a tree without explicit
levels); `is_bottom_level` iff the cursor's logical length is 1, in which
case no children are created.  Otherwise `self.tree[1]` is read (an
`IndexError` when only one explicit level remains) and `append_design` runs
for every design of the next level — the first such call raises
`AttributeError`, so a non-bottom section with a non-empty next level is
never completed. -/
def ExperimentSection.init (context : Context) (tree : DesignTree) :
    Except PyError ExperimentSection :=
  match tree.levels.head? with
  | none => .error (.indexError "list index out of range")
  | some l0 =>
    if tree.len == 1 then
      .ok (.mk context tree l0.name true none [])
    else
      match tree.levels[1]? with
      | none => .error (.indexError "list index out of range")
      | some l1 =>
        l1.design.foldlM (fun s design => s.append_design design false)
          (.mk context tree l0.name false (some l1.name) [])

mutual

/-- `ExperimentSection.generate_data` (section.py lines 60-65): for each
child in order, yield the child's context if it is bottom-level, otherwise
recurse into it. -/
def ExperimentSection.generate_data : ExperimentSection → List Context
  | .mk _ _ _ _ _ children => generateList children

/-- The child loop of `generate_data`. -/
def generateList : List ExperimentSection → List Context
  | [] => []
  | c :: rest =>
    (if c.is_bottom_level then [c.context] else c.generate_data) ++ generateList rest

end

mutual

/-- From the spec (section 4.4): all strict descendants of a section in
depth-first, left-to-right (pre-)order. -/
def descendantsDFS : ExperimentSection → List ExperimentSection
  | .mk _ _ _ _ _ children => descendantsList children

/-- Depth-first pre-order traversal of a sibling list. -/
def descendantsList : List ExperimentSection → List ExperimentSection
  | [] => []
  | c :: rest => c :: (descendantsDFS c ++ descendantsList rest)

end

/-- From the spec (section 4.3 `generate_data`): the fully resolved context
of every deepest-level descendant, in depth-first left-to-right order. -/
def bottomContexts (s : ExperimentSection) : List Context :=
  (descendantsDFS s).filterMap
    (fun d => if d.is_bottom_level then some d.context else none)

mutual

/-- Structural invariant of constructed section trees: a bottom-level
section has no children (section.py lines 16-18 create children only when
`is_bottom_level` is false). -/
def sectionWF : ExperimentSection → Bool
  | .mk _ _ _ b _ children => (!b || children.isEmpty) && sectionWFList children

/-- `sectionWF` on a sibling list. -/
def sectionWFList : List ExperimentSection → Bool
  | [] => true
  | c :: rest => sectionWF c && sectionWFList rest

end

/-- The per-column decoding step of `parseRow`, split out for analysis: the
(IV name, decoded value) pair a quadruple contributes. -/
def decodePair (quad : String × (Option (List Value) × (List Int × Int))) :
    Except PyError (String × Value) :=
  match quad.2.1 with
  | some (v :: vs) =>
    (decodeCell (v :: vs) quad.2.2.1 quad.2.2.2).map (fun value => (quad.1, value))
  | _ => .ok (quad.1, .int quad.2.2.2)

/-- From the spec (section 4.1, design-matrix decoding): a column's code is
mapped to the declared value at its position in the ascending enumeration of
the column's distinct codes; an IV declared with no values takes the raw
matrix cell directly. -/
def specDecode (ivv : Option (List Value)) (col : List Int) (cell : Int) : Option Value :=
  match ivv with
  | some vs@(_ :: _) => vs[(npUnique col).indexOf cell]?
  | _ => some (.int cell)

/-! Concrete fixtures used by the theorems below: orderings built against the
spec's collaborator contract, small designs, and small trees. -/

/-- An ordinary atomic ordering: `first_pass` returns the empty pair. -/
def atomicO : PyOrdering :=
  { get_order := fun _ => [], first_pass := fun _ => (none, []) }

/-- A non-atomic ordering in the sense of spec section 6: `first_pass`
returns a synthetic IV (name, values) pair, as e.g.
`order.CompleteCounterbalance` does. -/
def nonAtomicO : PyOrdering :=
  { get_order := fun _ => [],
    first_pass := fun _ => (some "counterbalance_order", [.int 0, .int 1]) }

/-- An ordering whose `get_order` returns one fixed condition, used to
exercise `Design.get_order`. -/
def echoO : PyOrdering :=
  { get_order := fun _ => [[("a", .int 1), ("x", .int 5)]],
    first_pass := fun _ => (none, []) }

/-- A design with one IV `s` and an atomic ordering. -/
def upperD : Design :=
  { iv_names := ["s"], iv_values := [some [.int 1, .int 2]],
    design_matrix := none, extra_data := [], ordering := atomicO }

/-- A design with no IVs and a non-atomic ordering. -/
def lowerNA : Design :=
  { iv_names := [], iv_values := [], design_matrix := none,
    extra_data := [], ordering := nonAtomicO }

/-- A design with one single-valued IV and an atomic ordering. -/
def trivialD : Design :=
  { iv_names := ["x"], iv_values := [some [.int 5]],
    design_matrix := none, extra_data := [], ordering := atomicO }

/-- A heterogeneous design: its `design` IV declares the branch `A`. -/
def hetD : Design :=
  { iv_names := ["design"], iv_values := [some [.str "A"]],
    design_matrix := none, extra_data := [], ordering := atomicO }

/-- A design used by `Design.get_order` theorems: extra data `x = 9`. -/
def echoD : Design :=
  { iv_names := ["a"], iv_values := [some [.int 1]],
    design_matrix := none, extra_data := [("x", .int 9)], ordering := echoO }

/-- A single-level tree specification whose only design has a non-atomic
ordering. -/
def topNASpec : TreeSpec := .raw [("block", .one lowerNA)]

/-- A single-level specification with two designs in sequence: a non-atomic
one followed by an atomic one. -/
def topNAMultiSpec : TreeSpec := .raw [("block", .seq [lowerNA, trivialD])]

/-- A two-level specification: atomic `block` above non-atomic `trial`. -/
def twoLvlSpec : TreeSpec := .raw [("block", .one upperD), ("trial", .one lowerNA)]

/-- A single-level heterogeneous specification declaring branch `A`. -/
def hetMainSpec : TreeSpec := .raw [("participant", .one hetD)]

/-- A two-level homogeneous raw branch specification. -/
def branchRawSpec : TreeSpec :=
  .raw [("block", .one trivialD), ("trial", .one trivialD)]

/-- The tree built from `twoLvlSpec` (construction succeeds; used as a
concrete fixture). -/
def c2tree : DesignTree :=
  (DesignTree.init twoLvlSpec []).toOption.getD (.mk [] [])

/-- The tree built from `hetMainSpec` with raw branch `A` of two levels:
one explicit level plus a branch tree of length 2. -/
def c4tree : DesignTree :=
  (DesignTree.init hetMainSpec [("A", branchRawSpec)]).toOption.getD (.mk [] [])

/-- The prebuilt two-level tree handed to the heterogeneous constructor as a
named alternate. -/
def c3pre : DesignTree := c2tree

/-- The `iv_names` of every design of every level of a tree, top to bottom. -/
def treeIvNames (t : DesignTree) : List (List (List String)) :=
  t.levels.map (fun l => l.design.map (fun d => d.iv_names))

/-- A design with two IV names but a one-column design matrix. -/
def colMismatchD : Design :=
  { iv_names := ["a", "b"],
    iv_values := [some [.int 1, .int 2], some [.int 1, .int 2]],
    design_matrix := some [[1], [2]], extra_data := [], ordering := atomicO }

/-- A design whose only IV declares 2 values against a column with 3
distinct codes. -/
def codeMismatchD : Design :=
  { iv_names := ["a"], iv_values := [some [.str "x", .str "y"]],
    design_matrix := some [[1], [2], [3]], extra_data := [], ordering := atomicO }

/-- A design with a 3-row design matrix: IV `a` declares values decoded from
column codes, IV `b` is continuous (matrix values taken at face value), and
extra data `e = 99`, `a = 0` (the latter overwritten per column). -/
def matrixD : Design :=
  { iv_names := ["a", "b"],
    iv_values := [some [.str "x", .str "y"], none],
    design_matrix := some [[2, 7], [1, 8], [2, 9]],
    extra_data := [("e", .int 99), ("a", .int 0)], ordering := atomicO }

/-- A concrete section tree: a non-bottom root with one bottom child and one
non-bottom child that itself has a bottom child. -/
def sampleSection : ExperimentSection :=
  .mk [[("p", .int 1)]] (.mk [] []) "participant" false (some "block")
    [ .mk [[("b", .int 1)], [("p", .int 1)]] (.mk [] []) "block" true none [],
      .mk [[("b", .int 2)], [("p", .int 1)]] (.mk [] []) "block" false (some "trial")
        [ .mk [[("t", .int 1)], [("b", .int 2)], [("p", .int 1)]] (.mk [] [])
            "trial" true none [] ] ]

/-! Helper lemmas about the dict model. -/

theorem find?_map_set_self (d : Condition) (k : String) (v : Value)
    (h : d.any (fun p => p.1 == k) = true) :
    (d.map (fun p => if p.1 == k then (k, v) else p)).find? (fun p => p.1 == k) =
      some (k, v) := by
  induction d with
  | nil => simp at h
  | cons p rest ih =>
    rw [List.map_cons]
    by_cases hp : p.1 = k
    · have hpt : (p.1 == k) = true := beq_iff_eq.mpr hp
      rw [if_pos hpt]
      simp [List.find?]
    · have hpf : (p.1 == k) = false := by simp [hp]
      simp only [List.any_cons, hpf, Bool.false_or] at h
      rw [if_neg (by simp [hpf])]
      simp only [List.find?, hpf]
      exact ih h

theorem find?_map_set_ne (d : Condition) (k k' : String) (v : Value) (hne : ¬ k' = k) :
    (d.map (fun p => if p.1 == k then (k, v) else p)).find? (fun p => p.1 == k') =
      d.find? (fun p => p.1 == k') := by
  induction d with
  | nil => simp
  | cons p rest ih =>
    rw [List.map_cons]
    by_cases hp : p.1 = k
    · have hpt : (p.1 == k) = true := beq_iff_eq.mpr hp
      have hk : (k == k') = false := by
        simp only [beq_eq_false_iff_ne, ne_eq]
        intro hs; exact hne hs.symm
      have hp1 : (p.1 == k') = false := by
        simp only [beq_eq_false_iff_ne, ne_eq, hp]
        intro hs; exact hne hs.symm
      rw [if_pos hpt]
      simp only [List.find?, hk, hp1]
      exact ih
    · have hpf : (p.1 == k) = false := by simp [hp]
      rw [if_neg (by simp [hpf])]
      by_cases hq : p.1 = k'
      · have hqt : (p.1 == k') = true := beq_iff_eq.mpr hq
        simp only [List.find?, hqt]
      · have hqf : (p.1 == k') = false := by simp [hq]
        simp only [List.find?, hqf]
        exact ih

theorem getVal_setKey_self (d : Condition) (k : String) (v : Value) :
    getVal (setKey d k v) k = some v := by
  unfold getVal setKey
  by_cases h : d.any (fun p => p.1 == k) = true
  · rw [if_pos h, find?_map_set_self d k v h]
    rfl
  · rw [if_neg h, List.find?_append]
    have hnone : d.find? (fun p => p.1 == k) = none := by
      rw [List.find?_eq_none]
      intro x hx hpx
      exact h (List.any_eq_true.mpr ⟨x, hx, hpx⟩)
    simp [hnone]

theorem getVal_setKey_ne (d : Condition) (k k' : String) (v : Value) (hne : ¬ k' = k) :
    getVal (setKey d k v) k' = getVal d k' := by
  unfold getVal setKey
  by_cases h : d.any (fun p => p.1 == k) = true
  · rw [if_pos h, find?_map_set_ne d k k' v hne]
  · rw [if_neg h, List.find?_append]
    have hk : (k == k') = false := by
      simp only [beq_eq_false_iff_ne, ne_eq]
      intro hs; exact hne hs.symm
    cases hd : d.find? (fun p => p.1 == k') with
    | none => simp [hd, hk]
    | some p => simp [hd]

theorem getVal_dictUpdate (d upd : Condition) (k : String)
    (h : (upd.map Prod.fst).Nodup) :
    getVal (dictUpdate d upd) k =
      match upd.find? (fun p => p.1 == k) with
      | some p => some p.2
      | none => getVal d k := by
  induction upd generalizing d with
  | nil => simp [dictUpdate, List.find?]
  | cons p rest ih =>
    simp only [List.map_cons, List.nodup_cons] at h
    have hstep : dictUpdate d (p :: rest) = dictUpdate (setKey d p.1 p.2) rest := rfl
    rw [hstep, ih _ h.2]
    by_cases hk : p.1 = k
    · have hfind : rest.find? (fun q => q.1 == k) = none := by
        rw [List.find?_eq_none]
        intro q hq hqk
        exact h.1 (hk ▸ (beq_iff_eq.mp hqk) ▸ List.mem_map_of_mem Prod.fst hq)
      have hp : (p.1 == k) = true := beq_iff_eq.mpr hk
      simp only [hfind, List.find?_cons, hp, cond_true]
      subst hk
      exact getVal_setKey_self d p.1 p.2
    · have hp : (p.1 == k) = false := by simp [hk]
      have hne : ¬ k = p.1 := fun hs => hk hs.symm
      cases hfind : rest.find? (fun q => q.1 == k) with
      | none => simp [List.find?_cons, hp, hfind, getVal_setKey_ne d p.1 k p.2 hne]
      | some q => simp [List.find?_cons, hp, hfind]

/-! Helper lemmas about `mapM` and `foldlM` over `Except`. -/

theorem mapM_ok_length {α β : Type} (f : α → Except PyError β) :
    ∀ (l : List α) (out : List β), l.mapM f = .ok out → out.length = l.length := by
  intro l
  induction l with
  | nil =>
    intro out h
    rw [← List.mapM'_eq_mapM] at h
    simp only [List.mapM', pure, Except.pure, Except.ok.injEq] at h
    simp [← h]
  | cons a as ih =>
    intro out h
    rw [← List.mapM'_eq_mapM] at h
    simp only [List.mapM'] at h
    cases hfa : f a with
    | error e => rw [hfa] at h; simp [Bind.bind, Except.bind] at h
    | ok b =>
      rw [hfa] at h
      simp only [Bind.bind, Except.bind] at h
      cases hrest : List.mapM' f as with
      | error e => rw [hrest] at h; simp at h
      | ok bs =>
        rw [hrest] at h
        simp only [pure, Except.pure, Except.ok.injEq] at h
        rw [List.mapM'_eq_mapM] at hrest
        simp [← h, ih bs hrest]

theorem mapM_ok_getElem {α β : Type} (f : α → Except PyError β) :
    ∀ (l : List α) (out : List β), l.mapM f = .ok out →
      ∀ (i : Nat) (a : α), l[i]? = some a →
        ∃ b, out[i]? = some b ∧ f a = .ok b := by
  intro l
  induction l with
  | nil => intro out _ i a ha; simp at ha
  | cons x xs ih =>
    intro out h i a ha
    rw [← List.mapM'_eq_mapM] at h
    simp only [List.mapM'] at h
    cases hfx : f x with
    | error e => rw [hfx] at h; simp [Bind.bind, Except.bind] at h
    | ok b =>
      rw [hfx] at h
      simp only [Bind.bind, Except.bind] at h
      cases hrest : List.mapM' f xs with
      | error e => rw [hrest] at h; simp at h
      | ok bs =>
        rw [hrest] at h
        simp only [pure, Except.pure, Except.ok.injEq] at h
        rw [List.mapM'_eq_mapM] at hrest
        cases i with
        | zero =>
          simp only [List.getElem?_cons_zero, Option.some.injEq] at ha
          exact ⟨b, by simp [← h], by rw [← ha]; exact hfx⟩
        | succ n =>
          simp only [List.getElem?_cons_succ] at ha
          obtain ⟨c, hc, hfc⟩ := ih bs hrest n a ha
          exact ⟨c, by simp [← h, hc], hfc⟩

/-! Helper lemmas about `itertoolsProduct` and zipped association lists. -/

theorem sum_map_const {α : Type} (l : List α) (c : Nat) :
    (l.map (fun _ => c)).sum = l.length * c := by
  induction l with
  | nil => simp
  | cons a as ih => simp [ih, Nat.succ_mul, Nat.add_comm]

theorem itertoolsProduct_length {α : Type} (vs : List (List α)) :
    (itertoolsProduct vs).length = (vs.map List.length).prod := by
  induction vs with
  | nil => simp [itertoolsProduct]
  | cons l ls ih =>
    simp only [itertoolsProduct, List.length_flatMap, List.map_cons, List.prod_cons]
    have h2 : ∀ (l' : List α), List.map (List.length ∘ fun v =>
        List.map (fun rest => v :: rest) (itertoolsProduct ls)) l' =
        List.replicate l'.length (itertoolsProduct ls).length := by
      intro l'
      induction l' with
      | nil => rfl
      | cons a as ihh =>
        simp only [List.map_cons, Function.comp_apply, List.length_map,
          List.length_cons, List.replicate_succ, ihh]
    rw [h2, List.sum_replicate, smul_eq_mul, ih]

theorem itertoolsProduct_mem_length {α : Type} (vs : List (List α)) :
    ∀ combo ∈ itertoolsProduct vs, combo.length = vs.length := by
  induction vs with
  | nil => intro combo h; simp [itertoolsProduct] at h; simp [h]
  | cons l ls ih =>
    intro combo h
    simp only [itertoolsProduct, List.mem_flatMap, List.mem_map] at h
    obtain ⟨v, _, rest, hrest, hcons⟩ := h
    simp [← hcons, ih rest hrest]

theorem flatMap_getElem? {α β : Type} (l : List α) (f : α → List β) (P : Nat)
    (hf : ∀ a ∈ l, (f a).length = P) (i : Nat) :
    (l.flatMap f)[i]? = (l[i / P]?).bind (fun a => (f a)[i % P]?) := by
  induction l generalizing i with
  | nil => simp
  | cons a as ih =>
    have hfa : (f a).length = P := hf a (List.mem_cons_self a as)
    have hrest : ∀ b ∈ as, (f b).length = P := fun b hb => hf b (List.mem_cons_of_mem a hb)
    rw [List.flatMap_cons]
    rcases Nat.eq_zero_or_pos P with hP | hP
    · subst hP
      have hempty : f a = [] := List.eq_nil_of_length_eq_zero hfa
      rw [hempty, List.nil_append, ih hrest]
      cases has : as[0]? with
      | none => simp [has, hempty]
      | some b =>
        have hb : b ∈ as := List.getElem?_mem has
        have hfb : f b = [] := List.eq_nil_of_length_eq_zero (hrest b hb)
        simp [has, hempty, hfb]
    · by_cases hi : i < P
      · have hi' : i < (f a).length := by rw [hfa]; exact hi
        rw [List.getElem?_append, if_pos hi']
        rw [Nat.div_eq_of_lt hi, Nat.mod_eq_of_lt hi]
        simp
      · have hge : P ≤ i := Nat.le_of_not_lt hi
        have hi' : ¬ i < (f a).length := by rw [hfa]; exact hi
        rw [List.getElem?_append, if_neg hi', hfa, ih hrest,
          Nat.div_eq_sub_div hP hge, Nat.mod_eq_sub_mod hge]
        simp

theorem mixedRadixAux (i A len Q : Nat) :
    ((i % (A * len * Q)) / Q) % len = (i / Q) % len := by
  rcases Nat.eq_zero_or_pos Q with hQ | hQ
  · subst hQ; simp
  rcases Nat.eq_zero_or_pos A with hA | hA
  · subst hA; simp
  rcases Nat.eq_zero_or_pos len with hlen | hlen
  · subst hlen; simp
  have hP : 0 < A * len * Q := by positivity
  conv_rhs => rw [← Nat.div_add_mod i (A * len * Q)]
  have hrw : A * len * Q * (i / (A * len * Q)) + i % (A * len * Q) =
      i % (A * len * Q) + Q * (A * len * (i / (A * len * Q))) := by ring
  rw [hrw, Nat.add_mul_div_left _ _ hQ]
  have hrw2 : i % (A * len * Q) / Q + A * len * (i / (A * len * Q)) =
      i % (A * len * Q) / Q + len * (A * (i / (A * len * Q))) := by ring
  rw [hrw2, Nat.add_mul_mod_self_left]

theorem zip_getElem? {α β : Type} :
    ∀ (l : List α) (l' : List β) (j : Nat) (a : α) (b : β),
      l[j]? = some a → l'[j]? = some b → (l.zip l')[j]? = some (a, b) := by
  intro l
  induction l with
  | nil => intro l' j a b ha _; simp at ha
  | cons x xs ih =>
    intro l' j a b ha hb
    cases l' with
    | nil => simp at hb
    | cons y ys =>
      cases j with
      | zero =>
        simp only [List.getElem?_cons_zero, Option.some.injEq] at ha hb
        simp [List.zip_cons_cons, ha, hb]
      | succ n =>
        simp only [List.getElem?_cons_succ] at ha hb
        simp [List.zip_cons_cons, ih ys n a b ha hb]

theorem find?_nodup_keys :
    ∀ (ps : List (String × Value)) (j : Nat) (p : String × Value),
      (ps.map Prod.fst).Nodup → ps[j]? = some p →
      ps.find? (fun q => q.1 == p.1) = some p := by
  intro ps
  induction ps with
  | nil => intro j p _ hj; simp at hj
  | cons q rest ih =>
    intro j p hnd hj
    simp only [List.map_cons, List.nodup_cons] at hnd
    cases j with
    | zero =>
      simp only [List.getElem?_cons_zero, Option.some.injEq] at hj
      subst hj
      simp [List.find?]
    | succ n =>
      simp only [List.getElem?_cons_succ] at hj
      have hmem : p ∈ rest := List.getElem?_mem hj
      have hne : (q.1 == p.1) = false := by
        simp only [beq_eq_false_iff_ne, ne_eq]
        intro he
        exact hnd.1 (he ▸ List.mem_map_of_mem Prod.fst hmem)
      simp only [List.find?, hne]
      exact ih n p hnd.2 hj

theorem itertoolsProduct_getElem? {α : Type} :
    ∀ (vs : List (List α)) (i : Nat) (combo : List α),
      (itertoolsProduct vs)[i]? = some combo →
      ∀ (j : Nat) (vj : List α), vs[j]? = some vj →
        ∃ x, combo[j]? = some x ∧
          vj[(i / ((vs.drop (j + 1)).map List.length).prod) % vj.length]? = some x := by
  intro vs
  induction vs with
  | nil => intro i combo _ j vj hj; simp at hj
  | cons l ls ih =>
    intro i combo hcombo j vj hj
    have hlen : ∀ a ∈ l, ((itertoolsProduct ls).map (a :: ·)).length =
        (ls.map List.length).prod := by
      intro a _
      rw [List.length_map, itertoolsProduct_length]
    rw [show itertoolsProduct (l :: ls) =
      l.flatMap (fun v => (itertoolsProduct ls).map (v :: ·)) from rfl] at hcombo
    rw [flatMap_getElem? l _ ((ls.map List.length).prod) hlen i] at hcombo
    cases hl : l[i / (ls.map List.length).prod]? with
    | none => rw [hl] at hcombo; simp at hcombo
    | some v =>
      rw [hl] at hcombo
      simp only [Option.some_bind, List.getElem?_map] at hcombo
      obtain ⟨rest, hrest, hcons⟩ := Option.map_eq_some'.mp hcombo
      cases j with
      | zero =>
        simp only [List.getElem?_cons_zero, Option.some.injEq] at hj
        subst hj
        refine ⟨v, by rw [← hcons]; simp, ?_⟩
        have hlt : i / (ls.map List.length).prod < l.length :=
          (List.getElem?_eq_some.mp hl).1
        simp only [List.drop_succ_cons, List.drop_zero]
        rw [Nat.mod_eq_of_lt hlt]
        exact hl
      | succ j' =>
        simp only [List.getElem?_cons_succ] at hj
        obtain ⟨x, hx, hvj⟩ := ih (i % (ls.map List.length).prod) rest hrest j' vj hj
        refine ⟨x, by rw [← hcons]; simpa using hx, ?_⟩
        simp only [List.drop_succ_cons]
        have hmapj : (ls.map List.length)[j']? = some vj.length := by
          rw [List.getElem?_map, hj]; rfl
        have hPdecomp : (ls.map List.length).prod =
            ((ls.map List.length).take j').prod * vj.length *
              ((ls.drop (j' + 1)).map List.length).prod := by
          have h1 : (ls.map List.length).prod =
              ((ls.map List.length).take (j' + 1)).prod *
                ((ls.map List.length).drop (j' + 1)).prod :=
            (List.prod_take_mul_prod_drop _ _).symm
          rw [h1, List.take_succ, hmapj]
          simp [List.prod_append, List.map_drop]
        rw [hPdecomp, mixedRadixAux] at hvj
        exact hvj

/-! Helper lemmas about `npUnique`, `decodeCell` and `parseRow`. -/

theorem npUnique_mem (l : List Int) (x : Int) : x ∈ npUnique l ↔ x ∈ l := by
  unfold npUnique
  rw [(List.perm_insertionSort _ _).mem_iff]
  exact List.mem_dedup

theorem npUnique_nodup (l : List Int) : (npUnique l).Nodup :=
  (List.perm_insertionSort _ _).nodup_iff.mpr (List.nodup_dedup l)

theorem npUnique_sorted (l : List Int) : (npUnique l).Sorted (· ≤ ·) :=
  List.sorted_insertionSort _ _

theorem find?_zip_index :
    ∀ (fv : List Int) (vs : List Value) (cell : Int), fv.Nodup →
      vs.length = fv.length → cell ∈ fv →
      ∃ v, (fv.zip vs).find? (fun p => p.1 == cell) = some (cell, v) ∧
        vs[fv.indexOf cell]? = some v := by
  intro fv
  induction fv with
  | nil => intro vs cell _ _ hmem; simp at hmem
  | cons x fv' ih =>
    intro vs cell hnodup hlen hmem
    cases vs with
    | nil => simp at hlen
    | cons v vs' =>
      simp only [List.length_cons, Nat.succ_inj] at hlen
      simp only [List.nodup_cons] at hnodup
      by_cases hx : x = cell
      · subst hx
        refine ⟨v, ?_, ?_⟩
        · simp [List.zip_cons_cons, List.find?]
        · simp [List.indexOf_cons_self]
      · have hxf : (x == cell) = false := by simp [hx]
        have hmem' : cell ∈ fv' := by
          cases List.mem_cons.mp hmem with
          | inl h => exact absurd h.symm hx
          | inr h => exact h
        obtain ⟨w, hf, hidx⟩ := ih vs' cell hnodup.2 hlen hmem'
        refine ⟨w, ?_, ?_⟩
        · simp only [List.zip_cons_cons, List.find?, hxf]
          exact hf
        · rw [List.indexOf_cons_ne _ hx]
          simpa using hidx

theorem transposeRect_getElem? (r : List Int) (rest : List (List Int)) (j : Nat)
    (hj : j < r.length) :
    (transposeRect (r :: rest))[j]? =
      some ((r :: rest).filterMap (fun row => row[j]?)) := by
  unfold transposeRect
  rw [List.getElem?_map, List.getElem?_range hj]
  rfl

theorem decodePair_key (q : String × (Option (List Value) × (List Int × Int)))
    (p : String × Value) (h : decodePair q = .ok p) : p.1 = q.1 := by
  obtain ⟨name, ivv, fv, cell⟩ := q
  cases ivv with
  | none =>
    simp only [decodePair] at h
    injection h with h
    rw [← h]
  | some vs =>
    cases vs with
    | nil =>
      simp only [decodePair] at h
      injection h with h
      rw [← h]
    | cons v vs' =>
      simp only [decodePair] at h
      cases hd : decodeCell (v :: vs') fv cell with
      | error e => rw [hd] at h; simp [Except.map] at h
      | ok value =>
        rw [hd] at h
        simp only [Except.map, Except.ok.injEq] at h
        rw [← h]

theorem mapM_decodePair_keys :
    ∀ (quads : List (String × (Option (List Value) × (List Int × Int))))
      (ps : List (String × Value)), quads.mapM decodePair = .ok ps →
      ps.map Prod.fst = quads.map Prod.fst := by
  intro quads
  induction quads with
  | nil =>
    intro ps h
    rw [← List.mapM'_eq_mapM] at h
    simp only [List.mapM', pure, Except.pure, Except.ok.injEq] at h
    simp [← h]
  | cons q rest ih =>
    intro ps h
    rw [← List.mapM'_eq_mapM] at h
    simp only [List.mapM'] at h
    cases hq : decodePair q with
    | error e => rw [hq] at h; simp [Bind.bind, Except.bind] at h
    | ok p =>
      rw [hq] at h
      simp only [Bind.bind, Except.bind] at h
      cases hrest : List.mapM' decodePair rest with
      | error e => rw [hrest] at h; simp at h
      | ok ps' =>
        rw [hrest] at h
        simp only [pure, Except.pure, Except.ok.injEq] at h
        rw [List.mapM'_eq_mapM] at hrest
        simp [← h, ih ps' hrest, decodePair_key q p hq]

theorem step_eq_decodePair (acc : Condition)
    (q : String × (Option (List Value) × (List Int × Int))) :
    parseStep acc q = (decodePair q).map (fun p => setKey acc p.1 p.2) := by
  obtain ⟨name, ivv, fv, cell⟩ := q
  cases ivv with
  | none => rfl
  | some vs =>
    cases vs with
    | nil => rfl
    | cons v vs' =>
      simp only [parseStep, decodePair]
      cases hd : decodeCell (v :: vs') fv cell with
      | error e => simp [Except.map, Bind.bind, Except.bind]
      | ok value => simp [Except.map, Bind.bind, Except.bind, pure, Except.pure]

theorem foldlM_decodePair :
    ∀ (quads : List (String × (Option (List Value) × (List Int × Int))))
      (acc : Condition),
      quads.foldlM parseStep acc =
      (quads.mapM decodePair).map (fun ps => dictUpdate acc ps) := by
  intro quads
  induction quads with
  | nil => intro acc; rfl
  | cons q rest ih =>
    intro acc
    rw [List.foldlM_cons, step_eq_decodePair acc q, ← List.mapM'_eq_mapM]
    simp only [List.mapM']
    cases hq : decodePair q with
    | error e =>
      simp [Except.map, Bind.bind, Except.bind]
    | ok p =>
      simp only [Except.map, Bind.bind, Except.bind]
      rw [ih (setKey acc p.1 p.2)]
      cases hrest : List.mapM' decodePair rest with
      | error e =>
        rw [List.mapM'_eq_mapM] at hrest
        rw [hrest]
        simp [Except.map]
      | ok ps' =>
        rw [List.mapM'_eq_mapM] at hrest
        rw [hrest]
        simp only [Except.map, pure, Except.pure]
        rfl

theorem parseRow_eq (d : Design) (vpf : List (List Int)) (row : List Int) :
    parseRow d vpf row =
      ((d.iv_names.zip (d.iv_values.zip (vpf.zip row))).mapM decodePair).map
        (fun ps => dictUpdate d.extra_data ps) := by
  unfold parseRow
  exact foldlM_decodePair _ d.extra_data

/-! Claim theorems. -/

/-- C1 (code bug): section.py lines 29 and 33 evaluate
`design.order(**self.context)`, but the `Design` class defines no attribute
`order` — its condition-producing method is `get_order` — so every
`append_design` call raises `AttributeError`, and in particular the
`ExperimentSection` constructor on a non-terminal cursor (here the concrete
two-level tree `c2tree`) fails instead of calling `get_order` and building
one child per condition. -/
theorem C1_append_design_attribute_error :
    (∀ (s : ExperimentSection) (design : Design) (to_start : Bool),
      s.append_design design to_start =
        .error (.attributeError "Design object has no attribute order")) ∧
    ExperimentSection.init [[]] c2tree =
      .error (.attributeError "Design object has no attribute order") := by
  refine ⟨fun s design to_start => rfl, rfl⟩

/-- C5 counterexample: a `Design` declaring an IV with no values and no
design matrix fails with the built-in `TypeError`, not with a
`ConfigurationError` — no `ConfigurationError` class exists in the
sources. -/
theorem C5_counterexample :
    Design.init [("x", none)] none none none =
      .error (.typeError "Must specify a design matrix if using continuous IVs (values=None)") ∧
    (PyError.typeError "Must specify a design matrix if using continuous IVs (values=None)").isConfigurationError = false :=
  ⟨rfl, rfl⟩

/-- C5 (amended): the four core construction failures raise the built-in
`TypeError` or `ValueError`: a continuous IV without a design matrix and a
design-matrix column-count mismatch raise `TypeError`; a distinct-code-count
mismatch and a non-atomic ordering surfacing at the top of a tree raise
`ValueError`. -/
theorem C5_error_classes :
    Design.init [("x", none)] none none none =
      .error (.typeError "Must specify a design matrix if using continuous IVs (values=None)") ∧
    colMismatchD.first_pass =
      .error (.typeError "Size of design matrix does not match number of IVs") ∧
    codeMismatchD.first_pass =
      .error (.valueError "Unique elements in design matrix do not match number of values in IV definition") ∧
    DesignTree.init topNASpec [] =
      .error (.valueError "Cannot have a non-atomic ordering at the top level of a DesignTree. The recommended workaround is to insert a dummy level with no IVs and number=1.") :=
  ⟨rfl, rfl, rfl, rfl⟩

/-- C4 counterexample: the constructed tree `c4tree` has one explicit
(heterogeneous) level and a branch tree of length 2, so its logical length
is 3; the claim's case analysis (`L ≠ 1` and `L ≠ 2`, hence "otherwise")
predicts a tree with the first level dropped, but peeling yields the
branch-name → tree map. -/
theorem C4_counterexample :
    c4tree.len = 3 ∧
    (match c4tree.next with
     | .ok (.inr bs) => some (bs.map (fun p => p.1))
     | _ => none) = some [.str "A"] :=
  ⟨rfl, rfl⟩

/-- C4 (amended): peeling is illegal exactly at logical length 1; whenever
the length is not 1 and exactly one explicit level remains (the
heterogeneous bottom with its branch map), peeling yields the branch map —
regardless of whether the logical length is 2; otherwise peeling drops the
first level and carries the branch map through unchanged; and the logical
length is the number of explicit levels plus the length of the first branch
tree when a branch map exists. -/
theorem C4_peel (t : DesignTree) :
    (t.len = 1 → t.next = .error .stopIteration) ∧
    (t.len ≠ 1 → t.levels.length = 1 → t.next = .ok (.inr t.branches)) ∧
    (t.len ≠ 1 → t.levels.length ≠ 1 →
      t.next = .ok (.inl (.mk t.levels.tail t.branches))) ∧
    t.len = t.levels.length +
      (match t.branches with
       | [] => 0
       | (_, b) :: _ => b.len) := by
  cases t with
  | mk levels branches =>
    refine ⟨?_, ?_, ?_, ?_⟩
    · intro h
      unfold DesignTree.next
      simp [h]
    · intro h h1
      unfold DesignTree.next
      simp only [beq_iff_eq, h, if_false, h1, if_pos]
    · intro h h1
      unfold DesignTree.next
      simp only [beq_iff_eq, h, if_false, h1, if_neg]
    · cases branches <;> simp [DesignTree.len, DesignTree.levels, DesignTree.branches]

/-- Witness for `C4_peel`: on the concrete tree `c4tree` (logical length 3,
one explicit level), peeling yields the branch map. -/
theorem C4_peel_witness : c4tree.next = .ok (.inr c4tree.branches) :=
  (C4_peel c4tree).2.1 (by decide) rfl

/-- C7: `Design.get_order` returns the ordering's condition sequence with
each condition updated with the design's extra data: extra-data values take
precedence over same-named IV values, all other keys keep the ordering's
values, and the sequence's length and order are preserved. -/
theorem C7_get_order (d : Design) (data : Option Condition)
    (hnodup : (d.extra_data.map Prod.fst).Nodup) :
    (d.get_order data).length = (d.ordering.get_order data).length ∧
    ∀ (i : Nat) (c : Condition), (d.ordering.get_order data)[i]? = some c →
      ∃ r, (d.get_order data)[i]? = some r ∧
        (∀ k v, getVal d.extra_data k = some v → getVal r k = some v) ∧
        (∀ k, getVal d.extra_data k = none → getVal r k = getVal c k) := by
  constructor
  · simp [Design.get_order]
  · intro i c hc
    refine ⟨dictUpdate c d.extra_data, ?_, ?_, ?_⟩
    · simp [Design.get_order, hc]
    · intro k v hv
      rw [getVal_dictUpdate _ _ _ hnodup]
      unfold getVal at hv
      obtain ⟨p, hp, hp2⟩ := Option.map_eq_some'.mp hv
      simp [hp, hp2]
    · intro k hk
      rw [getVal_dictUpdate _ _ _ hnodup]
      unfold getVal at hk
      cases hf : d.extra_data.find? (fun p => p.1 == k) with
      | none => simp [hf]
      | some p => rw [hf] at hk; simp at hk

/-- Witness for `C7_get_order`: on `echoD` (extra data `x = 9`, ordering
returning the single condition `a = 1, x = 5`), the returned condition has
`x = 9` (extra data wins) and `a = 1`. -/
theorem C7_witness :
    ∃ r, (echoD.get_order none)[0]? = some r ∧
      getVal r "x" = some (.int 9) ∧ getVal r "a" = some (.int 1) := by
  obtain ⟨r, hr, hext, hiv⟩ :=
    (C7_get_order echoD none (by decide)).2 0 [("a", .int 1), ("x", .int 5)] rfl
  exact ⟨r, hr, hext "x" (.int 9) rfl, by rw [hiv "a" rfl]; rfl⟩

/-- C6: decoding a design matrix yields one condition per matrix row, in row
order; each condition starts from a copy of the extra data and is then
overwritten per column by the decoded IV value (IV values take precedence
over extra data, keys outside the IVs keep their extra-data values); a
truthy declared value list is indexed by the position of the cell's code in
the ascending enumeration of the column's distinct codes (`npUnique`, shown
sorted, duplicate-free and co-extensive with the column), and an IV declared
with no values takes the raw matrix cell. -/
theorem C6_parse_design_matrix (d : Design) (m : List (List Int))
    (conds : List Condition)
    (hnodup : d.iv_names.Nodup)
    (hvlen : d.iv_values.length = d.iv_names.length)
    (hrect : ∀ row ∈ m, row.length = d.iv_names.length)
    (hok : d.parse_design_matrix m = .ok conds) :
    conds.length = m.length ∧
    (∀ col : List Int, (npUnique col).Sorted (· ≤ ·) ∧ (npUnique col).Nodup ∧
      ∀ x, x ∈ npUnique col ↔ x ∈ col) ∧
    ∀ (i : Nat) (row : List Int) (cond : Condition),
      m[i]? = some row → conds[i]? = some cond →
      (∀ k, ¬ k ∈ d.iv_names → getVal cond k = getVal d.extra_data k) ∧
      (∀ (j : Nat) (name : String) (ivv : Option (List Value)) (cell : Int),
        d.iv_names[j]? = some name → d.iv_values[j]? = some ivv →
        row[j]? = some cell →
        getVal cond name = specDecode ivv (m.filterMap (fun r => r[j]?)) cell) := by
  simp only [Design.parse_design_matrix] at hok
  split at hok
  · exact absurd hok (by simp)
  rename_i hcheck
  refine ⟨mapM_ok_length _ m conds hok,
    fun col => ⟨npUnique_sorted col, npUnique_nodup col, fun x => npUnique_mem col x⟩, ?_⟩
  intro i row cond hrow hcond
  obtain ⟨cond', hcond', hparse⟩ := mapM_ok_getElem _ m conds hok i row hrow
  have hcc : cond' = cond := by
    rw [hcond'] at hcond
    exact Option.some.inj hcond
  subst hcc
  have hrowmem : row ∈ m := List.getElem?_mem hrow
  have hrlen : row.length = d.iv_names.length := hrect row hrowmem
  obtain ⟨r0, mrest, hm⟩ : ∃ r0 mrest, m = r0 :: mrest := by
    cases m with
    | nil => simp at hrow
    | cons a as => exact ⟨a, as, rfl⟩
  have hr0len : r0.length = d.iv_names.length := by
    refine hrect r0 ?_
    rw [hm]
    exact List.mem_cons_self _ _
  have hvpfLen : ((transposeRect m).map npUnique).length = d.iv_names.length := by
    rw [hm]
    simp [transposeRect, hr0len]
  rw [parseRow_eq] at hparse
  obtain ⟨ps, hps, hcondEq⟩ : ∃ ps,
      (d.iv_names.zip (d.iv_values.zip (((transposeRect m).map npUnique).zip row))).mapM
        decodePair = .ok ps ∧ cond' = dictUpdate d.extra_data ps := by
    cases hmm : (d.iv_names.zip
        (d.iv_values.zip (((transposeRect m).map npUnique).zip row))).mapM decodePair with
    | error e => rw [hmm] at hparse; simp [Except.map] at hparse
    | ok ps =>
      rw [hmm] at hparse
      simp only [Except.map, Except.ok.injEq] at hparse
      exact ⟨ps, rfl, hparse.symm⟩
  have hkeys0 := mapM_decodePair_keys _ ps hps
  have htailLen : d.iv_names.length ≤
      (d.iv_values.zip (((transposeRect m).map npUnique).zip row)).length := by
    rw [List.length_zip, List.length_zip, hvlen, hvpfLen, hrlen]
    omega
  have hkeys : ps.map Prod.fst = d.iv_names := by
    rw [hkeys0]
    exact List.map_fst_zip _ _ htailLen
  have hndps : (ps.map Prod.fst).Nodup := by
    rw [hkeys]
    exact hnodup
  constructor
  · intro k hk
    rw [hcondEq, getVal_dictUpdate _ _ _ hndps]
    have hnone : ps.find? (fun p => p.1 == k) = none := by
      rw [List.find?_eq_none]
      intro p hp hpk
      have hmemk : p.1 ∈ ps.map Prod.fst := List.mem_map_of_mem Prod.fst hp
      rw [hkeys] at hmemk
      exact hk (beq_iff_eq.mp hpk ▸ hmemk)
    simp [hnone]
  · intro j name ivv cell hname hvv hcell
    have hj : j < d.iv_names.length := (List.getElem?_eq_some.mp hname).1
    have hjr : j < r0.length := by rw [hr0len]; exact hj
    have htrans : (transposeRect m)[j]? = some (m.filterMap (fun r => r[j]?)) := by
      rw [hm]
      exact transposeRect_getElem? r0 mrest j hjr
    have hvpfj : ((transposeRect m).map npUnique)[j]? =
        some (npUnique (m.filterMap (fun r => r[j]?))) := by
      rw [List.getElem?_map, htrans]
      rfl
    have hquadj : (d.iv_names.zip
        (d.iv_values.zip (((transposeRect m).map npUnique).zip row)))[j]? =
        some (name, (ivv, (npUnique (m.filterMap (fun r => r[j]?)), cell))) :=
      zip_getElem? _ _ j _ _ hname
        (zip_getElem? _ _ j _ _ hvv (zip_getElem? _ _ j _ _ hvpfj hcell))
    obtain ⟨p, hpj, hdp⟩ := mapM_ok_getElem decodePair _ ps hps j _ hquadj
    have hpkey : p.1 = name := decodePair_key _ p hdp
    have hfind : ps.find? (fun q => q.1 == name) = some p := by
      have hf2 := find?_nodup_keys ps j p hndps hpj
      rw [hpkey] at hf2
      exact hf2
    rw [hcondEq, getVal_dictUpdate _ _ _ hndps, hfind]
    cases ivv with
    | none =>
      have hpv : p = (name, Value.int cell) := by
        simp only [decodePair] at hdp
        exact (Except.ok.inj hdp).symm
      rw [hpv]
      rfl
    | some vs =>
      cases vs with
      | nil =>
        have hpv : p = (name, Value.int cell) := by
          simp only [decodePair] at hdp
          exact (Except.ok.inj hdp).symm
        rw [hpv]
        rfl
      | cons v vs' =>
        have hpair : (d.iv_values.zip ((transposeRect m).map npUnique))[j]? =
            some (some (v :: vs'), npUnique (m.filterMap (fun r => r[j]?))) :=
          zip_getElem? _ _ j _ _ hvv hvpfj
        have hpairmem := List.getElem?_mem hpair
        have hlenEq : (v :: vs').length =
            (npUnique (m.filterMap (fun r => r[j]?))).length := by
          by_contra hne
          apply hcheck
          refine List.any_eq_true.mpr ⟨_, hpairmem, ?_⟩
          simp
          simpa using hne
        have hcellcol : cell ∈ m.filterMap (fun r => r[j]?) :=
          List.mem_filterMap.mpr ⟨row, hrowmem, hcell⟩
        have hcellfv : cell ∈ npUnique (m.filterMap (fun r => r[j]?)) :=
          (npUnique_mem _ cell).mpr hcellcol
        obtain ⟨w, hfw, hidx⟩ := find?_zip_index _ (v :: vs') cell
          (npUnique_nodup _) hlenEq hcellfv
        have hdc : decodeCell (v :: vs') (npUnique (m.filterMap (fun r => r[j]?))) cell =
            .ok w := by
          unfold decodeCell
          rw [hfw]
        have hpw : p = (name, w) := by
          simp only [decodePair] at hdp
          rw [hdc] at hdp
          simp only [Except.map, Except.ok.injEq] at hdp
          exact hdp.symm
        rw [hpw]
        simp only [specDecode]
        exact hidx.symm

/-- Witness for `C6_parse_design_matrix` on `matrixD` (matrix
`[[2,7],[1,8],[2,9]]`): the first row's code 2 decodes IV `a` to the
declared value `y`, overriding the extra-data entry `a = 0`, while the
extra key `e` survives. -/
theorem C6_witness :
    getVal [("e", Value.int 99), ("a", Value.str "y"), ("b", Value.int 7)] "a" =
      specDecode (some [.str "x", .str "y"])
        (([[2, 7], [1, 8], [2, 9]] : List (List Int)).filterMap (fun r => r[0]?)) 2 ∧
    getVal [("e", Value.int 99), ("a", Value.str "y"), ("b", Value.int 7)] "e" =
      getVal matrixD.extra_data "e" := by
  have h := C6_parse_design_matrix matrixD [[2, 7], [1, 8], [2, 9]]
    [[("e", .int 99), ("a", .str "y"), ("b", .int 7)],
     [("e", .int 99), ("a", .str "x"), ("b", .int 8)],
     [("e", .int 99), ("a", .str "y"), ("b", .int 9)]]
    (by decide) rfl (by decide) rfl
  obtain ⟨hextra, hiv⟩ := h.2.2 0 [2, 7]
    [("e", .int 99), ("a", .str "y"), ("b", .int 7)] rfl rfl
  exact ⟨hiv 0 "a" (some [.str "x", .str "y"]) 2 rfl rfl rfl,
    hextra "e" (by decide)⟩

/-- C8: `Design.full_cross` yields one condition per element of the
Cartesian product of the IV value lists (the length is the product of the
list lengths), in standard product order — position `i` assigns to the
`j`-th IV the value at index `(i / prod-of-later-lengths) mod own-length`,
so earlier-declared IVs vary slower than later ones — and on
`a:[1,2], b:[10,20]` it yields exactly the four stated conditions in that
order. -/
theorem C8_full_cross (iv_names : List String) (iv_values : List (List Value))
    (hnodup : iv_names.Nodup) (hlen : iv_names.length ≤ iv_values.length) :
    (Design.full_cross iv_names iv_values).length = (iv_values.map List.length).prod ∧
    (∀ (i : Nat) (cond : Condition),
      (Design.full_cross iv_names iv_values)[i]? = some cond →
      ∀ (j : Nat) (name : String) (vj : List Value),
        iv_names[j]? = some name → iv_values[j]? = some vj →
        getVal cond name =
          vj[(i / ((iv_values.drop (j + 1)).map List.length).prod) % vj.length]?) ∧
    Design.full_cross ["a", "b"] [[.int 1, .int 2], [.int 10, .int 20]] =
      [[("a", .int 1), ("b", .int 10)], [("a", .int 1), ("b", .int 20)],
       [("a", .int 2), ("b", .int 10)], [("a", .int 2), ("b", .int 20)]] := by
  refine ⟨?_, ?_, rfl⟩
  · rw [Design.full_cross, List.length_map, itertoolsProduct_length]
  · intro i cond hcond j name vj hname hvj
    rw [Design.full_cross, List.getElem?_map] at hcond
    obtain ⟨combo, hcombo, hdict⟩ := Option.map_eq_some'.mp hcond
    obtain ⟨x, hx, hvjx⟩ := itertoolsProduct_getElem? iv_values i combo hcombo j vj hvj
    have hcomboMem : combo ∈ itertoolsProduct iv_values := List.getElem?_mem hcombo
    have hcomboLen : combo.length = iv_values.length :=
      itertoolsProduct_mem_length iv_values combo hcomboMem
    have hkeys : (iv_names.zip combo).map Prod.fst = iv_names :=
      List.map_fst_zip iv_names combo (hcomboLen ▸ hlen)
    have hzip : (iv_names.zip combo)[j]? = some (name, x) :=
      zip_getElem? iv_names combo j name x hname hx
    have hnd2 : ((iv_names.zip combo).map Prod.fst).Nodup := by
      rw [hkeys]; exact hnodup
    have hfind := find?_nodup_keys (iv_names.zip combo) j (name, x) hnd2 hzip
    rw [← hdict]
    have hdup : dictOfPairs (iv_names.zip combo) =
        dictUpdate [] (iv_names.zip combo) := rfl
    rw [hdup, getVal_dictUpdate _ _ _ hnd2, hfind, hvjx]

/-- Witness for `C8_full_cross`: the condition at index 2 of the cross of
`a:[1,2], b:[10,20]` assigns `a = 2`. -/
theorem C8_witness :
    getVal [("a", Value.int 2), ("b", Value.int 10)] "a" = some (.int 2) := by
  have h := (C8_full_cross ["a", "b"] [[.int 1, .int 2], [.int 10, .int 20]]
    (by decide) (by decide)).2.1 2
    [("a", .int 2), ("b", .int 10)] rfl 0 "a" [.int 1, .int 2] rfl rfl
  simpa using h

theorem generateList_eq_aux :
    ∀ (n : Nat) (l : List ExperimentSection), sizeOf l ≤ n → sectionWFList l = true →
      generateList l = (descendantsList l).filterMap
        (fun d => if d.is_bottom_level then some d.context else none) := by
  intro n
  induction n with
  | zero =>
    intro l hsz _
    cases l with
    | nil => simp [generateList, descendantsList]
    | cons c rest =>
      simp only [List.cons.sizeOf_spec] at hsz
      omega
  | succ n ih =>
    intro l hsz hwf
    cases l with
    | nil => simp [generateList, descendantsList]
    | cons c rest =>
      have hwf2 : sectionWF c = true ∧ sectionWFList rest = true := by
        simpa [sectionWFList, Bool.and_eq_true] using hwf
      cases c with
      | mk ctx tr lv b nl children =>
        simp only [List.cons.sizeOf_spec, ExperimentSection.mk.sizeOf_spec] at hsz
        have hsc : sizeOf children ≤ n := by omega
        have hsr : sizeOf rest ≤ n := by omega
        have hwfc : (!b || children.isEmpty) = true ∧ sectionWFList children = true := by
          simpa [sectionWF, Bool.and_eq_true] using hwf2.1
        rw [generateList, descendantsList]
        rw [show descendantsDFS (.mk ctx tr lv b nl children) =
          descendantsList children from rfl]
        rw [List.filterMap_cons, List.filterMap_append]
        cases b with
        | true =>
          have hch : children = [] := by
            have := hwfc.1
            simp only [Bool.not_true, Bool.false_or, List.isEmpty_iff] at this
            exact this
          subst hch
          simp only [show (ExperimentSection.mk ctx tr lv true nl []).is_bottom_level =
            true from rfl, if_pos]
          rw [show (ExperimentSection.mk ctx tr lv true nl []).context = ctx from rfl]
          rw [show descendantsList ([] : List ExperimentSection) = [] from rfl]
          simp only [List.filterMap_nil, List.nil_append]
          rw [ih rest hsr hwf2.2]
          rfl
        | false =>
          simp only [show (ExperimentSection.mk ctx tr lv false nl children).is_bottom_level =
            false from rfl, if_neg]
          rw [show (ExperimentSection.mk ctx tr lv false nl children).generate_data =
            generateList children from rfl]
          rw [ih children hsc hwfc.2, ih rest hsr hwf2.2]
          simp

/-- C9: on every well-formed section tree (bottom-level nodes have no
children, as the constructor guarantees), `generate_data` equals the
depth-first, left-to-right sequence of the contexts of all bottom-level
strict descendants.  The model is pure, so the sequence is a finite list
determined by the tree alone: repeated calls trivially agree. -/
theorem C9_generate_data (s : ExperimentSection) (h : sectionWF s = true) :
    s.generate_data = bottomContexts s := by
  cases s with
  | mk ctx tr lv b nl children =>
    have hwfl : sectionWFList children = true := by
      have := by simpa [sectionWF] using h
      exact this.2
    rw [show (ExperimentSection.mk ctx tr lv b nl children).generate_data =
      generateList children from rfl]
    rw [show bottomContexts (.mk ctx tr lv b nl children) =
      (descendantsList children).filterMap
        (fun d => if d.is_bottom_level then some d.context else none) from rfl]
    exact generateList_eq_aux (sizeOf children) children (Nat.le_refl _) hwfl

/-- Witness for `C9_generate_data` on a concrete three-node-deep section
tree. -/
theorem C9_witness : sampleSection.generate_data = bottomContexts sampleSection :=
  C9_generate_data sampleSection (by decide)

/-- C3 (code bug): the verbatim-reuse filter of `DesignTree.__init__`
(design.py line 394) compares each named alternate — a `DesignTree` object
or a raw specification — against the branch-name strings declared by the
`design` IV, so it retains nothing (the Python membership test is constantly
false, `TreeSpec.pyEqValue`): supplying the prebuilt two-level tree `c3pre`
as branch `A` yields a branch that is not `c3pre` but a reconstruction whose
designs went through `first_pass` a second time, installing the synthetic
`counterbalance_order` IV twice. -/
theorem C3_branch_not_reused :
    (∀ (others : List (String × TreeSpec)) (vs : List Value),
      others.filter (fun p => vs.any (fun v => p.2.pyEqValue v)) = []) ∧
    treeIvNames c3pre = [[["s", "counterbalance_order"]], [[]]] ∧
    (match DesignTree.init hetMainSpec [("A", .tree c3pre)] with
     | .ok t => some (t.branches.map (fun p => (p.1, treeIvNames p.2)))
     | _ => none) =
      some [(.str "A",
        [[["s", "counterbalance_order", "counterbalance_order"]], [[]]])] := by
  refine ⟨?_, rfl, rfl⟩
  intro others vs
  simp [TreeSpec.pyEqValue]

theorem fpAux_single_inv (lvl : Level) (levels' : List Level)
    (results : List (Option String × List Value))
    (h : fpAux [lvl] = .ok (levels', results)) :
    lvl.design.mapM Design.first_pass = .ok results ∧
      levels' = [⟨lvl.name, lvl.design⟩] := by
  simp only [fpAux] at h
  cases hm : lvl.design.mapM Design.first_pass with
  | error e => rw [hm] at h; simp [Bind.bind, Except.bind] at h
  | ok rs =>
    rw [hm] at h
    simp only [Bind.bind, Except.bind, pure, Except.pure, Except.ok.injEq,
      Prod.mk.injEq] at h
    exact ⟨by rw [h.2], h.1.symm⟩

theorem fpAux_cons2_inv (lvl next : Level) (rest : List Level)
    (levels' : List Level) (results : List (Option String × List Value))
    (h : fpAux (lvl :: next :: rest) = .ok (levels', results)) :
    ∃ rest' subResults,
      fpAux (next :: rest) = .ok (rest', subResults) ∧
      (lvl.design.map (fun d =>
        d.update (collectNew subResults).1 (collectNew subResults).2)).mapM
        Design.first_pass = .ok results ∧
      levels' = ⟨lvl.name, lvl.design.map (fun d =>
        d.update (collectNew subResults).1 (collectNew subResults).2)⟩ :: rest' := by
  simp only [fpAux] at h
  cases hr : fpAux (next :: rest) with
  | error e => rw [hr] at h; simp [Bind.bind, Except.bind] at h
  | ok pr =>
    obtain ⟨rest', subResults⟩ := pr
    rw [hr] at h
    simp only [Bind.bind, Except.bind] at h
    cases hm : (lvl.design.map (fun (d : Design) =>
        d.update (collectNew subResults).1 (collectNew subResults).2)).mapM
        Design.first_pass with
    | error e => rw [hm] at h; simp at h
    | ok rs =>
      rw [hm] at h
      simp only [pure, Except.pure, Except.ok.injEq, Prod.mk.injEq] at h
      exact ⟨rest', subResults, rfl, h.2 ▸ hm, h.1.symm⟩

theorem fpAux_head_inv (r1 : Level) (rest1 : List Level) (rest' : List Level)
    (subResults : List (Option String × List Value))
    (h : fpAux (r1 :: rest1) = .ok (rest', subResults)) :
    ∃ ds tail', rest' = ⟨r1.name, ds⟩ :: tail' ∧
      ds.mapM Design.first_pass = .ok subResults := by
  cases rest1 with
  | nil =>
    obtain ⟨hm, hl⟩ := fpAux_single_inv r1 rest' subResults h
    exact ⟨r1.design, [], hl, hm⟩
  | cons r2 rest2 =>
    obtain ⟨tail', sub2, _, hm, hl⟩ := fpAux_cons2_inv r1 r2 rest2 rest' subResults h
    exact ⟨_, tail', hl, hm⟩

theorem fpAux_install :
    ∀ (levels levels' : List Level) (results : List (Option String × List Value)),
      fpAux levels = .ok (levels', results) →
      ∀ (i : Nat), i + 1 < levels.length →
        ∀ (upper upper' lower' : Level),
          levels[i]? = some upper → levels'[i]? = some upper' →
          levels'[i + 1]? = some lower' →
          ∃ rs, lower'.design.mapM Design.first_pass = .ok rs ∧
            upper'.design = upper.design.map (fun d =>
              d.update (collectNew rs).1 (collectNew rs).2) := by
  intro levels
  induction levels with
  | nil => intro levels' results _ i hi; simp at hi
  | cons lvl rest ih =>
    intro levels' results h i hi upper upper' lower' hup hup' hlow'
    obtain ⟨r1, rest1, hr⟩ : ∃ r1 rest1, rest = r1 :: rest1 := by
      cases rest with
      | nil => simp at hi
      | cons a b => exact ⟨a, b, rfl⟩
    subst hr
    obtain ⟨rest', subResults, hrest, hmapM, hlevels'⟩ :=
      fpAux_cons2_inv lvl r1 rest1 levels' results h
    subst hlevels'
    cases i with
    | zero =>
      simp only [List.getElem?_cons_zero, Option.some.injEq] at hup hup'
      simp only [List.getElem?_cons_succ] at hlow'
      obtain ⟨ds, tail', hrest', hm1⟩ :=
        fpAux_head_inv r1 rest1 rest' subResults hrest
      subst hrest'
      simp only [List.getElem?_cons_zero, Option.some.injEq] at hlow'
      refine ⟨subResults, ?_, ?_⟩
      · rw [← hlow']
        exact hm1
      · rw [← hup', ← hup]
    | succ i' =>
      simp only [List.getElem?_cons_succ] at hup hup' hlow'
      refine ih rest' subResults hrest i' ?_ upper upper' lower' hup hup' hlow'
      simpa using hi

/-- C2 (amended): a `DesignTree` whose top level's last design has a
non-atomic ordering fails with `ValueError` — only the final top-level
design's `first_pass` result is inspected, so a non-atomic design followed
by an atomic one at the top is not rejected; the same non-atomic ordering
one level down succeeds; in the bottom-up pass, the synthetic IVs returned
by the `first_pass` of every design of the level directly below (already
updated from further below) are installed via `update` on every design of
the level above before that level's own `first_pass` runs; concretely, the
built two-level tree's top design carries `counterbalance_order` with values
`[0, 1]`, and every condition of its full cross contains it with one of
those values. -/
theorem C2_first_pass_install :
    DesignTree.init topNASpec [] =
      .error (.valueError "Cannot have a non-atomic ordering at the top level of a DesignTree. The recommended workaround is to insert a dummy level with no IVs and number=1.") ∧
    (∃ t, DesignTree.init topNAMultiSpec [] = .ok t) ∧
    (∀ (levels levels' : List Level) (results : List (Option String × List Value)),
      fpAux levels = .ok (levels', results) →
      ∀ (i : Nat), i + 1 < levels.length →
        ∀ (upper upper' lower' : Level),
          levels[i]? = some upper → levels'[i]? = some upper' →
          levels'[i + 1]? = some lower' →
          ∃ rs, lower'.design.mapM Design.first_pass = .ok rs ∧
            upper'.design = upper.design.map (fun d =>
              d.update (collectNew rs).1 (collectNew rs).2)) ∧
    (c2tree.levels.head?.map (fun l =>
      l.design.map (fun d => (d.iv_names, d.iv_values)))) =
      some [(["s", "counterbalance_order"],
        [some [.int 1, .int 2], some [.int 0, .int 1]])] ∧
    (c2tree.levels.head?.map (fun l => l.design.map (fun d =>
      (seqVals d.iv_values).map (fun vss =>
        (Design.full_cross d.iv_names vss).all (fun cond =>
          decide (getVal cond "counterbalance_order" = some (.int 0) ∨
            getVal cond "counterbalance_order" = some (.int 1))))))) =
      some [some true] :=
  ⟨rfl, ⟨_, rfl⟩, fpAux_install, rfl, rfl⟩

/-- Witness for the installation clause of `C2_first_pass_install` on the
concrete two-level fixture. -/
theorem C2_witness :
    ∃ rs, (Level.mk "trial" [lowerNA]).design.mapM Design.first_pass = .ok rs ∧
      (Level.mk "block"
        [upperD.update ["counterbalance_order"] [[.int 0, .int 1]]]).design =
        (Level.mk "block" [upperD]).design.map (fun d =>
          d.update (collectNew rs).1 (collectNew rs).2) :=
  C2_first_pass_install.2.2.1
    [⟨"block", [upperD]⟩, ⟨"trial", [lowerNA]⟩]
    [⟨"block", [upperD.update ["counterbalance_order"] [[.int 0, .int 1]]]⟩,
     ⟨"trial", [lowerNA]⟩]
    [(none, [])] rfl 0 (by simp)
    ⟨"block", [upperD]⟩
    ⟨"block", [upperD.update ["counterbalance_order"] [[.int 0, .int 1]]]⟩
    ⟨"trial", [lowerNA]⟩ rfl rfl rfl

/-- C2 counterexample: the top-level non-atomic rejection raises the
built-in `ValueError`, not a `ConfigurationError`; and a top level whose
designs are a non-atomic one followed by an atomic one is not rejected at
all, because only the last design's `first_pass` result is checked. -/
theorem C2_counterexample :
    DesignTree.init topNASpec [] =
      .error (.valueError "Cannot have a non-atomic ordering at the top level of a DesignTree. The recommended workaround is to insert a dummy level with no IVs and number=1.") ∧
    (PyError.valueError "Cannot have a non-atomic ordering at the top level of a DesignTree. The recommended workaround is to insert a dummy level with no IVs and number=1.").isConfigurationError = false ∧
    (match DesignTree.init topNAMultiSpec [] with
     | .ok _ => true
     | .error _ => false) = true :=
  ⟨rfl, rfl, rfl⟩

/-- C10: a section constructed on a cursor of logical length 1 is
bottom-level, has no children, and `generate_data` on it yields the empty
sequence — a section never yields its own context. -/
theorem C10_bottom_generate_data (context : Context) (t : DesignTree)
    (hlen : t.len = 1) (hlv : t.levels ≠ []) :
    ∃ s, ExperimentSection.init context t = .ok s ∧
      s.is_bottom_level = true ∧ s.children = [] ∧ s.generate_data = [] := by
  cases t with
  | mk levels branches =>
    match levels, hlv with
    | l0 :: rest, _ =>
      refine ⟨.mk context (.mk (l0 :: rest) branches) l0.name true none [],
        ?_, rfl, rfl, rfl⟩
      unfold ExperimentSection.init
      simp [DesignTree.levels, hlen]

/-- Witness for `C10_bottom_generate_data` at a concrete one-level tree. -/
theorem C10_witness :
    ∃ s, ExperimentSection.init []
        (DesignTree.mk [⟨"trial", [trivialD]⟩] []) = .ok s ∧
      s.is_bottom_level = true ∧ s.children = [] ∧ s.generate_data = [] :=
  C10_bottom_generate_data [] (DesignTree.mk [⟨"trial", [trivialD]⟩] []) rfl
    (by simp [DesignTree.levels])

end Experimentator
